import Mathlib

/-!
Shallow embedding of the hierarchical category store of this repository
(the Express + Postgres module: the latest revision of the handlers for
events and categories).  Stored state is the rows of the two tables; each
HTTP handler becomes a function from that state and its parsed inputs to
either a success payload or a typed error.  The recursive CTEs of the
subtree and full-tree queries are embedded by their evaluation scheme:
a working table recomputed round by round until empty, with an explicit
round bound `fuel` standing for the unbounded iteration of the engine.
-/

namespace EventCats

/-- A row of the categories table: `id SERIAL PRIMARY KEY`,
`label VARCHAR(255) NOT NULL`, `parent_id INTEGER REFERENCES
categories(id) ON DELETE CASCADE`, `event_id INTEGER REFERENCES
events(id) ON DELETE CASCADE`. -/
structure Cat where
  id : Nat
  label : String
  parent_id : Option Nat
  event_id : Nat
deriving DecidableEq

/-- A row of the events table: `id SERIAL PRIMARY KEY`,
`name VARCHAR(255) NOT NULL`. -/
structure Event where
  id : Nat
  name : String
deriving DecidableEq

/-- The error kinds the handlers answer with, per the taxonomy of the
design: 400 for malformed or unresolvable input (`ValidationError`), 404
for a missing target (`NotFoundError`), and the 400 of the self-move
check (`InvariantViolation`). -/
inductive ApiError where
  | validationError : String → ApiError
  | notFoundError : ApiError
  | invariantViolation : ApiError
deriving DecidableEq

/-- The expression `parentId || null` (and `newParentId || null`) of the
insert and move handlers: JavaScript treats 0, null and undefined as
falsy, so a parent id of 0 is written as NULL. -/
def coerceParent : Option Nat → Option Nat
  | some 0 => none
  | x => x

/-- Whether a category row with this id exists. -/
def hasCat (cats : List Cat) (i : Nat) : Bool :=
  cats.any (fun c => c.id == i)

/-- Whether an event row with this id exists. -/
def hasEvent (events : List Event) (i : Nat) : Bool :=
  events.any (fun e => e.id == i)

/-- A fresh SERIAL id for an inserted category row. -/
def freshCatId (cats : List Cat) : Nat :=
  (cats.map Cat.id).foldr max 0 + 1

/-- The handler of `POST /categories`: rejects a missing or empty label
and a missing eventId with 400, then runs `INSERT INTO categories
(label, parent_id, event_id) VALUES ($1, $2, $3)` with the coerced
parent; a foreign key violation (error code 23503) on event_id or
parent_id answers 400. -/
def createCategory (events : List Event) (cats : List Cat) (label : String)
    (parentId : Option Nat) (eventId : Option Nat) :
    Except ApiError (List Cat × Cat) :=
  if label = "" then .error (.validationError "Category label is required")
  else
    match eventId with
    | none => .error (.validationError "eventId is required for a category")
    | some e =>
      if hasEvent events e then
        match coerceParent parentId with
        | some pp =>
          if hasCat cats pp then
            let c : Cat := ⟨freshCatId cats, label, some pp, e⟩
            .ok (cats ++ [c], c)
          else .error (.validationError "Invalid eventId or parentId")
        | none =>
          let c : Cat := ⟨freshCatId cats, label, none, e⟩
          .ok (cats ++ [c], c)
      else .error (.validationError "Invalid eventId or parentId")

/-- Round `n` of the working table of a recursive CTE: the rows the
recursive member produces after being applied `n` times to the seed. -/
def powStep {α : Type} (step : List α → List α) (seed : List α) : Nat → List α
  | 0 => seed
  | n + 1 => step (powStep step seed n)

/-- The evaluation scheme of a recursive CTE with UNION ALL: emit the
working table, recompute it from the recursive member, stop when it
empties.  `fuel` bounds the rounds because the scheme itself has none. -/
def runCte {α : Type} (step : List α → List α) : Nat → List α → List α
  | 0, _ => []
  | n + 1, front => if front.isEmpty then [] else front ++ runCte step n (step front)

/-- The recursive member of the subtree CTE: `SELECT c.* FROM categories c
INNER JOIN subtree s ON c.parent_id = s.id`. -/
def frontierStep (cats front : List Cat) : List Cat :=
  cats.filter (fun c => front.any (fun s => c.parent_id == some s.id))

/-- The non-recursive member of the subtree CTE: `SELECT * FROM categories
WHERE id = $1`. -/
def subtreeSeed (cats : List Cat) (categoryId : Nat) : List Cat :=
  cats.filter (fun c => c.id == categoryId)

/-- The subtree query of `GET /categories/:id/subtree`: `WITH RECURSIVE
subtree AS (... UNION ALL ...) SELECT * FROM subtree`. -/
def fetchSubtree (cats : List Cat) (categoryId : Nat) (fuel : Nat) : List Cat :=
  runCte (frontierStep cats) fuel (subtreeSeed cats categoryId)

/-- The subtree handler answers 200 with the query rows; it has no error
branch for a missing category. -/
def subtreeHandler (cats : List Cat) (categoryId : Nat) (fuel : Nat) :
    Except ApiError (List Cat) :=
  .ok (fetchSubtree cats categoryId fuel)

/-- The unfueled CTE iteration terminates exactly when some round empties
the working table. -/
def cteTerminates (cats seed : List Cat) : Prop :=
  ∃ n, powStep (frontierStep cats) seed n = []

/-- The handler of `DELETE /categories/:id`: `DELETE FROM categories WHERE
id = $1 RETURNING id` removes the matched row, and `ON DELETE CASCADE` on
parent_id removes every row whose parent chain reaches it; rowCount counts
only the directly matched rows, so a missing id answers 404. -/
def deleteCategory (cats : List Cat) (categoryId : Nat) (fuel : Nat) :
    Except ApiError (List Cat) :=
  if hasCat cats categoryId then
    let doomed := (runCte (frontierStep cats) fuel (subtreeSeed cats categoryId)).map Cat.id
    .ok (cats.filter (fun c => !(doomed.contains c.id)))
  else .error .notFoundError

/-- The row update of `UPDATE categories SET parent_id = $1 WHERE
id = $2`. -/
def setParent (cats : List Cat) (categoryId : Nat) (p : Option Nat) : List Cat :=
  cats.map (fun c => if c.id == categoryId then { c with parent_id := p } else c)

/-- The handler of `PATCH /categories/:id/move`: the self-move check runs
first (`newParentId !== null && newParentId == categoryId`), then the
UPDATE with the coerced parent; zero matched rows answer 404, and a
foreign key violation on the new parent answers 400. -/
def moveSubtree (cats : List Cat) (categoryId : Nat) (newParentId : Option Nat) :
    Except ApiError (List Cat) :=
  if newParentId == some categoryId then .error .invariantViolation
  else
    if hasCat cats categoryId then
      match coerceParent newParentId with
      | some pp =>
        if hasCat cats pp then .ok (setParent cats categoryId (some pp))
        else .error (.validationError "Invalid category ID or newParentId")
      | none => .ok (setParent cats categoryId none)
    else .error .notFoundError

/-- The non-recursive member of the event tree CTE: `SELECT *, 0 as depth
FROM categories WHERE event_id = $1 AND parent_id IS NULL`. -/
def rootSeed (cats : List Cat) (eventId : Nat) : List (Cat × Nat) :=
  (cats.filter (fun c => c.event_id == eventId && c.parent_id == (none : Option Nat))).map
    (fun c => (c, 0))

/-- The recursive member of the event tree CTE: `SELECT c.*, ct.depth + 1
FROM categories c INNER JOIN category_tree ct ON c.parent_id = ct.id`
(note: it carries no event filter). -/
def treeStep (cats : List Cat) (front : List (Cat × Nat)) : List (Cat × Nat) :=
  cats.flatMap (fun c =>
    front.filterMap (fun s =>
      if c.parent_id == some s.1.id then some (c, s.2 + 1) else none))

/-- The sort key of `ORDER BY depth, id`. -/
def depthIdLe (a b : Cat × Nat) : Prop :=
  a.2 < b.2 ∨ (a.2 = b.2 ∧ a.1.id ≤ b.1.id)

instance : DecidableRel depthIdLe := fun a b =>
  decidable_of_iff (a.2 < b.2 ∨ (a.2 = b.2 ∧ a.1.id ≤ b.1.id)) Iff.rfl

instance : IsTotal (Cat × Nat) depthIdLe :=
  ⟨fun a b => by unfold depthIdLe; omega⟩

instance : IsTrans (Cat × Nat) depthIdLe :=
  ⟨fun a b c hab hbc => by
    unfold depthIdLe at hab hbc ⊢; omega⟩

/-- The full tree query of `GET /events/:eventId/categories/tree`: the
recursive CTE rows, each with its depth, ordered by `(depth, id)`. -/
def fetchFullTree (cats : List Cat) (eventId : Nat) (fuel : Nat) : List (Cat × Nat) :=
  List.insertionSort depthIdLe (runCte (treeStep cats) fuel (rootSeed cats eventId))

/-- Specification notion: transitive closure of the child relation from a
root row, that is the row itself and every row whose parent chain reaches
it through rows of the table. -/
inductive SubRow (cats : List Cat) (root : Cat) : Cat → Prop where
  | base : SubRow cats root root
  | step (c s : Cat) : c ∈ cats → SubRow cats root s → c.parent_id = some s.id →
      SubRow cats root c

/-- Specification notion: true path length from a root.  A parentless row
of the event has depth 0, and a child has its parent row's depth plus
one. -/
inductive EDepth (cats : List Cat) (eventId : Nat) : Cat → Nat → Prop where
  | base (c : Cat) : c.parent_id = none → c.event_id = eventId →
      EDepth cats eventId c 0
  | step (c s : Cat) (k : Nat) : s ∈ cats → c.parent_id = some s.id →
      EDepth cats eventId s k → EDepth cats eventId c (k + 1)

/-- A well formed categories table: the primary key ids are distinct, and
a ranking function witnesses that every parent reference resolves and the
parent relation is acyclic (the rank strictly drops from child to
parent). -/
structure WF (cats : List Cat) (d : Nat → Nat) : Prop where
  nodup : (cats.map Cat.id).Nodup
  parentWF : ∀ c ∈ cats, ∀ p, c.parent_id = some p →
    ∃ s, s ∈ cats ∧ s.id = p ∧ d c.id = d s.id + 1

/-- Invariant of the data model: parent edges stay within one event. -/
def SameEventParents (cats : List Cat) : Prop :=
  ∀ c ∈ cats, ∀ s ∈ cats, ∀ p, c.parent_id = some p → s.id = p →
    s.event_id = c.event_id

/-- Fixture: a root category of event 1. -/
def rowA : Cat := ⟨1, "A", none, 1⟩

/-- Fixture: a child of `rowA` in event 1. -/
def rowB : Cat := ⟨2, "B", some 1, 1⟩

/-- Fixture: the two-row table in which B is the child of A. -/
def twoChain : List Cat := [rowA, rowB]

/-- Fixture: a malformed two-row table whose parent edges form a cycle. -/
def twoCycle : List Cat := [⟨1, "A", some 2, 1⟩, ⟨2, "B", some 1, 1⟩]

/-- Fixture: event 1. -/
def evOne : Event := ⟨1, "E1"⟩

/-- Fixture: event 2. -/
def evTwo : Event := ⟨2, "E2"⟩

/-! Generic lemmas about the CTE evaluation scheme. -/

theorem powStep_shift {α : Type} (step : List α → List α) (seed : List α) (k : Nat) :
    powStep step (step seed) k = powStep step seed (k + 1) := by
  induction k with
  | zero => rfl
  | succ k ih => simp only [powStep, ih]

theorem powStep_nil {α : Type} (step : List α → List α) (hnil : step [] = [])
    (k : Nat) : powStep step [] k = [] := by
  induction k with
  | zero => rfl
  | succ k ih => simp only [powStep, ih, hnil]

theorem runCte_sound {α : Type} (step : List α → List α) (r : α) :
    ∀ (n : Nat) (front : List α), r ∈ runCte step n front →
      ∃ k, k < n ∧ r ∈ powStep step front k := by
  intro n
  induction n with
  | zero => intro front h; simp [runCte] at h
  | succ n ih =>
    intro front h
    simp only [runCte] at h
    by_cases he : front.isEmpty
    · simp [he] at h
    · simp only [he, if_false, Bool.false_eq_true, List.mem_append] at h
      rcases h with h | h
      · exact ⟨0, Nat.succ_pos n, h⟩
      · rcases ih (step front) h with ⟨k, hk, hm⟩
        exact ⟨k + 1, Nat.succ_lt_succ hk, by rwa [← powStep_shift]⟩

theorem runCte_complete {α : Type} (step : List α → List α) (hnil : step [] = [])
    (r : α) : ∀ (k n : Nat) (front : List α), r ∈ powStep step front k → k < n →
      r ∈ runCte step n front := by
  intro k
  induction k with
  | zero =>
    intro n front hm hn
    cases n with
    | zero => omega
    | succ n =>
      have hne : front.isEmpty = false := by
        cases hf : front.isEmpty
        · rfl
        · rw [List.isEmpty_iff] at hf
          subst hf
          simp [powStep] at hm
      simp only [runCte, hne, if_false, Bool.false_eq_true, List.mem_append]
      exact Or.inl hm
  | succ k ih =>
    intro n front hm hn
    cases n with
    | zero => omega
    | succ n =>
      have hm' : r ∈ powStep step (step front) k := by rwa [powStep_shift]
      have hne : front.isEmpty = false := by
        cases hf : front.isEmpty
        · rfl
        · rw [List.isEmpty_iff] at hf
          subst hf
          rw [hnil, powStep_nil step hnil] at hm'
          simp at hm'
      simp only [runCte, hne, if_false, Bool.false_eq_true, List.mem_append]
      exact Or.inr (ih n (step front) hm' (Nat.lt_of_succ_lt_succ hn))

theorem runCte_nil_seed {α : Type} (step : List α → List α) (n : Nat) :
    runCte step n [] = [] := by
  cases n with
  | zero => rfl
  | succ n => simp [runCte]

/-! Lemmas about the subtree query. -/

theorem frontierStep_nil (cats : List Cat) : frontierStep cats [] = [] := by
  simp [frontierStep]

theorem mem_frontierStep (cats front : List Cat) (c : Cat) :
    c ∈ frontierStep cats front ↔
      c ∈ cats ∧ ∃ s ∈ front, c.parent_id = some s.id := by
  simp [frontierStep, List.mem_filter, List.any_eq_true]

theorem mem_subtreeSeed (cats : List Cat) (i : Nat) (c : Cat) :
    c ∈ subtreeSeed cats i ↔ c ∈ cats ∧ c.id = i := by
  simp [subtreeSeed, List.mem_filter]

theorem id_inj {cats : List Cat} (h : (cats.map Cat.id).Nodup) {a b : Cat}
    (ha : a ∈ cats) (hb : b ∈ cats) (hab : a.id = b.id) : a = b :=
  List.inj_on_of_nodup_map h ha hb hab

theorem subRow_mem {cats : List Cat} {root c : Cat} (hroot : root ∈ cats)
    (h : SubRow cats root c) : c ∈ cats := by
  induction h with
  | base => exact hroot
  | step c s hc _ _ _ => exact hc

theorem subRow_rank_le {cats : List Cat} {d : Nat → Nat} (hwf : WF cats d)
    {rootRow c : Cat} (h : SubRow cats rootRow c) : d rootRow.id ≤ d c.id := by
  induction h with
  | base => exact Nat.le_refl _
  | step c s hc hsub hp ih =>
    rcases hwf.parentWF c hc s.id hp with ⟨t, htm, hts, hdc⟩
    rw [hts] at hdc
    omega

theorem frontierN_sound {cats : List Cat} (hnd : (cats.map Cat.id).Nodup)
    {root : Nat} {rootRow : Cat} (hmem : rootRow ∈ cats) (hid : rootRow.id = root) :
    ∀ (k : Nat) (c : Cat),
      c ∈ powStep (frontierStep cats) (subtreeSeed cats root) k →
      SubRow cats rootRow c := by
  intro k
  induction k with
  | zero =>
    intro c hc
    simp only [powStep] at hc
    rw [mem_subtreeSeed] at hc
    have hceq : c = rootRow := id_inj hnd hc.1 hmem (by rw [hc.2, hid])
    rw [hceq]
    exact SubRow.base
  | succ k ih =>
    intro c hc
    simp only [powStep] at hc
    rw [mem_frontierStep] at hc
    rcases hc with ⟨hcm, s, hs, hp⟩
    exact SubRow.step c s hcm (ih s hs) hp

theorem frontierN_complete {cats : List Cat} {d : Nat → Nat} (hwf : WF cats d)
    {root : Nat} {rootRow : Cat} (hmem : rootRow ∈ cats) (hid : rootRow.id = root)
    {c : Cat} (h : SubRow cats rootRow c) :
    c ∈ powStep (frontierStep cats) (subtreeSeed cats root) (d c.id - d root) := by
  induction h with
  | base =>
    have hz : d rootRow.id - d root = 0 := by rw [hid]; omega
    rw [hz]
    simp only [powStep]
    rw [mem_subtreeSeed]
    exact ⟨hmem, hid⟩
  | step c s hc hsub hp ih =>
    rcases hwf.parentWF c hc s.id hp with ⟨t, htm, hts, hdc⟩
    rw [hts] at hdc
    have hle : d rootRow.id ≤ d s.id := subRow_rank_le hwf hsub
    have harith : d c.id - d root = (d s.id - d root) + 1 := by rw [← hid]; omega
    rw [harith]
    simp only [powStep]
    rw [mem_frontierStep]
    exact ⟨hc, s, ih, hp⟩

theorem eq_single_of_all_eq {l : List Cat} {x : Cat} (hnd : l.Nodup)
    (hmem : x ∈ l) (hall : ∀ y ∈ l, y = x) : l = [x] := by
  cases l with
  | nil => simp at hmem
  | cons a t =>
    have ha : a = x := hall a (List.mem_cons_self a t)
    subst ha
    rw [List.nodup_cons] at hnd
    cases t with
    | nil => rfl
    | cons b t' =>
      have hb : b = a := hall b (by simp)
      subst hb
      exact absurd (List.mem_cons_self b t') hnd.1

theorem subtreeSeed_single {cats : List Cat} (hnd : (cats.map Cat.id).Nodup)
    {root : Nat} {rootRow : Cat} (hmem : rootRow ∈ cats) (hid : rootRow.id = root) :
    subtreeSeed cats root = [rootRow] := by
  apply eq_single_of_all_eq
  · exact List.Nodup.sublist (List.filter_sublist cats) (List.Nodup.of_map Cat.id hnd)
  · rw [mem_subtreeSeed]
    exact ⟨hmem, hid⟩
  · intro y hy
    rw [mem_subtreeSeed] at hy
    exact id_inj hnd hy.1 hmem (by rw [hy.2, hid])

theorem subtree_empty_of_no_id (cats : List Cat) (i fuel : Nat)
    (h : ∀ c ∈ cats, c.id ≠ i) : fetchSubtree cats i fuel = [] := by
  have hseed : subtreeSeed cats i = [] := by
    rw [subtreeSeed, List.filter_eq_nil_iff]
    intro c hc
    simp only [beq_iff_eq]
    exact h c hc
  rw [fetchSubtree, hseed, runCte_nil_seed]

/-- C3: for a category id that exists in a well formed table, the result
set of the subtree query is exactly the id's own row plus every row
transitively parented under it (the transitive closure of the child
relation from the id), nothing else, and the root row appears first in
the returned order. -/
theorem fetchSubtree_correct (cats : List Cat) (d : Nat → Nat) (root fuel : Nat)
    (rootRow : Cat) (hwf : WF cats d) (hmem : rootRow ∈ cats)
    (hid : rootRow.id = root) (hfuel : ∀ c ∈ cats, d c.id < d root + fuel) :
    (∀ r : Cat, r ∈ fetchSubtree cats root fuel ↔ SubRow cats rootRow r) ∧
    ∃ rest : List Cat, fetchSubtree cats root fuel = rootRow :: rest := by
  constructor
  · intro r
    constructor
    · intro hr
      rcases runCte_sound _ r fuel _ hr with ⟨k, _, hk⟩
      exact frontierN_sound hwf.nodup hmem hid k r hk
    · intro hr
      have hrm : r ∈ cats := subRow_mem hmem hr
      have hbound := hfuel r hrm
      have hle : d rootRow.id ≤ d r.id := subRow_rank_le hwf hr
      rw [hid] at hle
      exact runCte_complete _ (frontierStep_nil cats) r (d r.id - d root) fuel _
        (frontierN_complete hwf hmem hid hr) (by omega)
  · have hfz : 0 < fuel := by
      have := hfuel rootRow hmem
      rw [hid] at this
      omega
    obtain ⟨n, rfl⟩ : ∃ n, fuel = n + 1 := ⟨fuel - 1, by omega⟩
    rw [fetchSubtree, subtreeSeed_single hwf.nodup hmem hid]
    exact ⟨runCte (frontierStep cats) n (frontierStep cats [rootRow]), by simp [runCte]⟩

theorem wf_twoChain : WF twoChain (fun i => i) := by
  refine ⟨by decide, ?_⟩
  intro c hc p hp
  simp only [twoChain, List.mem_cons, List.not_mem_nil, or_false] at hc
  rcases hc with h | h
  · subst h
    exact Option.noConfusion hp
  · subst h
    have hp1 : p = 1 := by
      have h2 : (some 1 : Option Nat) = some p := hp
      injection h2 with h3
      omega
    subst hp1
    exact ⟨rowA, by decide, by decide, by decide⟩

/-- C3 witness: the theorem applied to the concrete two-row chain at its
root. -/
theorem fetchSubtree_correct_witness :
    (∀ r : Cat, r ∈ fetchSubtree twoChain 1 3 ↔ SubRow twoChain rowA r) ∧
    ∃ rest : List Cat, fetchSubtree twoChain 1 3 = rowA :: rest :=
  fetchSubtree_correct twoChain (fun i => i) 1 3 rowA wf_twoChain
    (by decide) (by decide) (by decide)

/-- C7: the subtree handler on an id that matches no stored category
answers success with the empty sequence, for any round bound; the handler
has no error branch for a missing category. -/
theorem subtree_nonexistent_ok_empty (cats : List Cat) (i fuel : Nat)
    (h : ∀ c ∈ cats, c.id ≠ i) :
    subtreeHandler cats i fuel = .ok [] := by
  rw [subtreeHandler, subtree_empty_of_no_id cats i fuel h]

/-- C7 witness: id 99 matches nothing in the two-row chain. -/
theorem subtree_nonexistent_ok_empty_witness :
    subtreeHandler twoChain 99 3 = .ok [] :=
  subtree_nonexistent_ok_empty twoChain 99 3 (by decide)

/-- C4 (evaluation of the code on the failing input): on a malformed
two-row table whose parent edges form a cycle, the working table of the
subtree CTE never empties, so the iteration of the UNION ALL recursion
never terminates: the query has no depth cap and no visited set. -/
theorem subtree_cte_diverges_on_cycle :
    ¬ cteTerminates twoCycle (subtreeSeed twoCycle 1) := by
  rintro ⟨n, hn⟩
  have key : ∀ m,
      powStep (frontierStep twoCycle) (subtreeSeed twoCycle 1) m =
        [⟨1, "A", some 2, 1⟩] ∨
      powStep (frontierStep twoCycle) (subtreeSeed twoCycle 1) m =
        [⟨2, "B", some 1, 1⟩] := by
    intro m
    induction m with
    | zero => left; rfl
    | succ m ih =>
      rcases ih with h | h <;> simp only [powStep, h]
      · right; rfl
      · left; rfl
  rcases key n with h | h <;> rw [h] at hn <;> simp at hn

/-- C1 (evaluation of the code on the failing input): B is a descendant
of A in the two-row chain, yet moving A under B succeeds and writes the
parent edge that closes the cycle, because the move handler checks only
the direct self-move case and never the descendant set. -/
theorem move_under_descendant_accepted :
    SubRow twoChain rowA rowB ∧
    moveSubtree twoChain 1 (some 2) = .ok [⟨1, "A", some 2, 1⟩, rowB] := by
  constructor
  · exact SubRow.step rowB rowA (by decide) SubRow.base (by decide)
  · rfl

/-- C2: deleting an existing category removes exactly the rows of its
subtree (itself and its transitive descendants) and nothing else;
afterwards its subtree query returns the empty sequence for any round
bound and a second delete answers NotFoundError; deleting an id that
matches nothing answers NotFoundError. -/
theorem deleteCategory_cascade (cats : List Cat) (d : Nat → Nat) (cid fuel : Nat)
    (hwf : WF cats d) (hfuel : ∀ c ∈ cats, d c.id < d cid + fuel) :
    (∀ rootRow ∈ cats, rootRow.id = cid →
      ∃ cats', deleteCategory cats cid fuel = .ok cats' ∧
        (∀ r : Cat, r ∈ cats' ↔ r ∈ cats ∧ ¬ SubRow cats rootRow r) ∧
        (∀ fuel2 : Nat, fetchSubtree cats' cid fuel2 = []) ∧
        (∀ fuel2 : Nat, deleteCategory cats' cid fuel2 = .error .notFoundError)) ∧
    (hasCat cats cid = false →
      deleteCategory cats cid fuel = .error .notFoundError) := by
  constructor
  · intro rootRow hmem hid
    have hhas : hasCat cats cid = true := by
      rw [hasCat, List.any_eq_true]
      exact ⟨rootRow, hmem, by simp [hid]⟩
    set doomed := (runCte (frontierStep cats) fuel (subtreeSeed cats cid)).map Cat.id
      with hdoomed
    set catsEnd := cats.filter (fun c => !(doomed.contains c.id)) with hcatsEnd
    have hdel : deleteCategory cats cid fuel = .ok catsEnd := by
      rw [deleteCategory, if_pos hhas]
    have hmemiff : ∀ r : Cat, r ∈ cats →
        (doomed.contains r.id = true ↔ SubRow cats rootRow r) := by
      intro r hr
      constructor
      · intro hcont
        have hidm : r.id ∈ doomed := by simpa using hcont
        rw [hdoomed] at hidm
        rcases List.mem_map.mp hidm with ⟨s, hs, hsid⟩
        rcases runCte_sound _ s fuel _ hs with ⟨k, _, hk⟩
        have hsub := frontierN_sound hwf.nodup hmem hid k s hk
        have hsm : s ∈ cats := subRow_mem hmem hsub
        have hsr : s = r := id_inj hwf.nodup hsm hr hsid
        rwa [hsr] at hsub
      · intro hsub
        have hle : d rootRow.id ≤ d r.id := subRow_rank_le hwf hsub
        rw [hid] at hle
        have hbound := hfuel r hr
        have hrun : r ∈ runCte (frontierStep cats) fuel (subtreeSeed cats cid) :=
          runCte_complete _ (frontierStep_nil cats) r (d r.id - d cid) fuel _
            (frontierN_complete hwf hmem hid hsub) (by omega)
        have hidm : r.id ∈ doomed := by
          rw [hdoomed]
          exact List.mem_map.mpr ⟨r, hrun, rfl⟩
        simpa using hidm
    have hiff : ∀ r : Cat, r ∈ catsEnd ↔ r ∈ cats ∧ ¬ SubRow cats rootRow r := by
      intro r
      rw [hcatsEnd, List.mem_filter]
      constructor
      · rintro ⟨hrm, hb⟩
        refine ⟨hrm, fun hsub => ?_⟩
        have hc := (hmemiff r hrm).mpr hsub
        rw [hc] at hb
        simp at hb
      · rintro ⟨hrm, hnsub⟩
        refine ⟨hrm, ?_⟩
        cases hcont : doomed.contains r.id with
        | false => rfl
        | true => exact absurd ((hmemiff r hrm).mp hcont) hnsub
    have hnone : ∀ r ∈ catsEnd, r.id ≠ cid := by
      intro r hr hreq
      rcases (hiff r).mp hr with ⟨hrm, hnsub⟩
      have hrr : r = rootRow := id_inj hwf.nodup hrm hmem (by rw [hreq, hid])
      subst hrr
      exact hnsub SubRow.base
    refine ⟨catsEnd, hdel, hiff, ?_, ?_⟩
    · intro fuel2
      exact subtree_empty_of_no_id catsEnd cid fuel2 hnone
    · intro fuel2
      have hno : hasCat catsEnd cid = false := by
        rw [hasCat, List.any_eq_false]
        intro x hx
        simp only [beq_iff_eq]
        exact hnone x hx
      simp [deleteCategory, hno]
  · intro h
    simp [deleteCategory, h]

/-- C2 witness: the theorem applied to the concrete two-row chain at its
root. -/
theorem deleteCategory_cascade_witness :
    (∀ rootRow ∈ twoChain, rootRow.id = 1 →
      ∃ cats', deleteCategory twoChain 1 3 = .ok cats' ∧
        (∀ r : Cat, r ∈ cats' ↔ r ∈ twoChain ∧ ¬ SubRow twoChain rootRow r) ∧
        (∀ fuel2 : Nat, fetchSubtree cats' 1 fuel2 = []) ∧
        (∀ fuel2 : Nat, deleteCategory cats' 1 fuel2 = .error .notFoundError)) ∧
    (hasCat twoChain 1 = false →
      deleteCategory twoChain 1 3 = .error .notFoundError) :=
  deleteCategory_cascade twoChain (fun i => i) 1 3 wf_twoChain (by decide)

/-- C8 counterexample: on the empty table category 7 does not exist, yet
a move of 7 under 7 answers the self-move InvariantViolation, not
NotFoundError, because the self-move check runs before the existence
check. -/
theorem move_missing_self_check_first :
    hasCat [] 7 = false ∧
    moveSubtree [] 7 (some 7) = .error .invariantViolation :=
  ⟨rfl, rfl⟩

/-- C8 amended: a move of a missing category answers NotFoundError unless
the requested new parent equals the missing id (then the self-move check
answers InvariantViolation first), and a move of an existing category
whose provided nonzero new parent resolves to no category answers
ValidationError (a new parent of 0 is instead coerced to none). -/
theorem move_error_cases :
    (∀ (cats : List Cat) (cid : Nat) (np : Option Nat),
      hasCat cats cid = false → np ≠ some cid →
      moveSubtree cats cid np = .error .notFoundError) ∧
    (∀ (cats : List Cat) (cid p : Nat),
      hasCat cats cid = true → p ≠ 0 → hasCat cats p = false →
      moveSubtree cats cid (some p) =
        .error (.validationError "Invalid category ID or newParentId")) := by
  constructor
  · intro cats cid np h hne
    have hb : (np == some cid) = false := beq_eq_false_iff_ne.mpr hne
    simp [moveSubtree, hb, h]
  · intro cats cid p h hp0 hpf
    have hne : (some p : Option Nat) ≠ some cid := by
      intro he
      injection he with he2
      subst he2
      rw [h] at hpf
      exact Bool.noConfusion hpf
    have hb : ((some p : Option Nat) == some cid) = false := beq_eq_false_iff_ne.mpr hne
    have hco : coerceParent (some p) = some p := by
      cases p with
      | zero => exact absurd rfl hp0
      | succ n => rfl
    simp [moveSubtree, hb, h, hco, hpf]

/-- C8 witness: a move of missing category 9 answers NotFoundError on the
two-row chain, and a move of existing category 1 under missing nonzero
parent 9 answers ValidationError. -/
theorem move_error_cases_witness :
    moveSubtree twoChain 9 none = .error .notFoundError ∧
    moveSubtree twoChain 1 (some 9) =
      .error (.validationError "Invalid category ID or newParentId") :=
  ⟨move_error_cases.1 twoChain 9 none (by decide) (by decide),
   move_error_cases.2 twoChain 1 9 (by decide) (by decide) (by decide)⟩

/-- C9: a successful move rewrites only the parent field of the moved
row: every other row is kept as it is, the moved row keeps its id, label
and event and receives the coerced new parent, and the result holds
nothing beyond these rows. -/
theorem move_frame (cats catsEnd : List Cat) (cid : Nat) (np : Option Nat)
    (h : moveSubtree cats cid np = .ok catsEnd) :
    catsEnd.length = cats.length ∧
    (∀ c ∈ cats, c.id ≠ cid → c ∈ catsEnd) ∧
    (∀ c ∈ cats, c.id = cid →
      ∃ c2 ∈ catsEnd, c2.id = c.id ∧ c2.label = c.label ∧
        c2.event_id = c.event_id ∧ c2.parent_id = coerceParent np) ∧
    (∀ c2 ∈ catsEnd, (c2 ∈ cats ∧ c2.id ≠ cid) ∨
      ∃ c ∈ cats, c.id = cid ∧ c2.id = c.id ∧ c2.label = c.label ∧
        c2.event_id = c.event_id ∧ c2.parent_id = coerceParent np) := by
  have hset : catsEnd = setParent cats cid (coerceParent np) := by
    rw [moveSubtree] at h
    split at h
    · exact Except.noConfusion h
    · split at h
      · split at h
        next pp heq =>
          split at h
          · rw [heq]
            exact (Except.ok.inj h).symm
          · exact Except.noConfusion h
        next heq =>
          rw [heq]
          exact (Except.ok.inj h).symm
      · exact Except.noConfusion h
  subst hset
  refine ⟨by simp [setParent], ?_, ?_, ?_⟩
  · intro c hc hne
    have hb : (c.id == cid) = false := beq_eq_false_iff_ne.mpr hne
    exact List.mem_map.mpr ⟨c, hc, by simp [hb]⟩
  · intro c hc he
    have hb : (c.id == cid) = true := by simp [he]
    exact ⟨{ c with parent_id := coerceParent np },
      List.mem_map.mpr ⟨c, hc, by simp [hb]⟩, rfl, rfl, rfl, rfl⟩
  · intro c2 hc2
    rcases List.mem_map.mp hc2 with ⟨c, hc, hfc⟩
    by_cases hb : (c.id == cid) = true
    · right
      rw [if_pos hb] at hfc
      refine ⟨c, hc, by rwa [beq_iff_eq] at hb, ?_, ?_, ?_, ?_⟩ <;> rw [← hfc]
    · left
      rw [if_neg hb] at hfc
      subst hfc
      exact ⟨hc, by simpa using hb⟩

/-- C9 witness: the theorem applied to moving B to the root on the
two-row chain. -/
theorem move_frame_witness :
    ([rowA, ⟨2, "B", none, 1⟩] : List Cat).length = twoChain.length ∧
    (∀ c ∈ twoChain, c.id ≠ 2 → c ∈ ([rowA, ⟨2, "B", none, 1⟩] : List Cat)) ∧
    (∀ c ∈ twoChain, c.id = 2 →
      ∃ c2 ∈ ([rowA, ⟨2, "B", none, 1⟩] : List Cat), c2.id = c.id ∧ c2.label = c.label ∧
        c2.event_id = c.event_id ∧ c2.parent_id = coerceParent none) ∧
    (∀ c2 ∈ ([rowA, ⟨2, "B", none, 1⟩] : List Cat), (c2 ∈ twoChain ∧ c2.id ≠ 2) ∨
      ∃ c ∈ twoChain, c.id = 2 ∧ c2.id = c.id ∧ c2.label = c.label ∧
        c2.event_id = c.event_id ∧ c2.parent_id = coerceParent none) :=
  move_frame twoChain [rowA, ⟨2, "B", none, 1⟩] 2 none rfl

/-- C10: a parent id of 0 is falsy in JavaScript and coerced to NULL, so
creation with parentId 0 succeeds and yields a root category, and a move
with newParentId 0 on an existing category succeeds and makes it a root,
instead of failing on the never-allocated id 0. -/
theorem zero_parent_means_root (events : List Event) (cats : List Cat)
    (label : String) (e cid : Nat) (hl : label ≠ "") (he : hasEvent events e = true)
    (hc : hasCat cats cid = true) (hcid : cid ≠ 0) :
    (∃ catsEnd c, createCategory events cats label (some 0) (some e) = .ok (catsEnd, c) ∧
      c.parent_id = none) ∧
    (∃ catsEnd, moveSubtree cats cid (some 0) = .ok catsEnd ∧
      ∀ c2 ∈ catsEnd, c2.id = cid → c2.parent_id = none) := by
  constructor
  · refine ⟨cats ++ [⟨freshCatId cats, label, none, e⟩],
      ⟨freshCatId cats, label, none, e⟩, ?_, rfl⟩
    rw [createCategory]
    simp [hl, he, coerceParent]
  · refine ⟨setParent cats cid none, ?_, ?_⟩
    · have hb : ((some 0 : Option Nat) == some cid) = false := by
        rw [beq_eq_false_iff_ne]
        intro hcon
        injection hcon with h2
        exact hcid h2.symm
      simp [moveSubtree, hb, hc, coerceParent]
    · intro c2 hc2 hid2
      rcases List.mem_map.mp hc2 with ⟨c, hc3, hfc⟩
      by_cases hb2 : (c.id == cid) = true
      · rw [if_pos hb2] at hfc
        rw [← hfc]
      · rw [if_neg hb2] at hfc
        subst hfc
        simp only [beq_iff_eq] at hb2
        exact absurd hid2 hb2

/-- C10 witness: parentId 0 under event 1 creates a root, and moving
existing category 2 with newParentId 0 makes it a root. -/
theorem zero_parent_means_root_witness :
    (∃ catsEnd c, createCategory [evOne] twoChain "X" (some 0) (some 1) = .ok (catsEnd, c) ∧
      c.parent_id = none) ∧
    (∃ catsEnd, moveSubtree twoChain 2 (some 0) = .ok catsEnd ∧
      ∀ c2 ∈ catsEnd, c2.id = 2 → c2.parent_id = none) :=
  zero_parent_means_root [evOne] twoChain "X" 1 2 (by decide) (by decide)
    (by decide) (by decide)

/-- C6 counterexample: category A belongs to event 1, yet creating a
category under parent A for event 2 succeeds: the handler checks only
that the parent id resolves, never the parent's event. -/
theorem create_cross_event_parent_accepted :
    rowA.event_id = 1 ∧
    createCategory [evOne, evTwo] [rowA] "X" (some 1) (some 2) =
      .ok ([rowA, ⟨2, "X", some 1, 2⟩], ⟨2, "X", some 1, 2⟩) :=
  ⟨rfl, rfl⟩

/-- C6 amended: createCategory fails (always with a ValidationError)
exactly when the label is empty, the eventId is missing or resolves to no
event, or the coerced parent id (0 is coerced to none) resolves to no
category; the parent's event is never compared with the given event; on
success the new row is appended and carries the coerced parent, the given
event and the label. -/
theorem createCategory_spec :
    ∀ (events : List Event) (cats : List Cat) (label : String)
      (parentId eventId : Option Nat),
      ((∃ res, createCategory events cats label parentId eventId = .ok res) ↔
        (label ≠ "" ∧ (∃ e, eventId = some e ∧ hasEvent events e = true) ∧
          (coerceParent parentId = none ∨
            ∃ pp, coerceParent parentId = some pp ∧ hasCat cats pp = true))) ∧
      (∀ err, createCategory events cats label parentId eventId = .error err →
        ∃ msg, err = .validationError msg) ∧
      (∀ catsEnd c, createCategory events cats label parentId eventId = .ok (catsEnd, c) →
        c.parent_id = coerceParent parentId ∧ some c.event_id = eventId ∧
        c.label = label ∧ catsEnd = cats ++ [c]) := by
  intro events cats label parentId eventId
  unfold createCategory
  by_cases hl : label = ""
  · rw [if_pos hl]
    refine ⟨?_, ?_, ?_⟩
    · constructor
      · rintro ⟨res, hres⟩
        exact absurd hres (by simp)
      · rintro ⟨hne, -⟩
        exact absurd hl hne
    · intro err herr
      exact ⟨_, (Except.error.inj herr).symm⟩
    · intro catsEnd c hok
      exact absurd hok (by simp)
  · rw [if_neg hl]
    cases eventId with
    | none =>
      refine ⟨?_, ?_, ?_⟩
      · constructor
        · rintro ⟨res, hres⟩
          exact absurd hres (by simp)
        · rintro ⟨-, ⟨e, he, -⟩, -⟩
          exact Option.noConfusion he
      · intro err herr
        exact ⟨_, (Except.error.inj herr).symm⟩
      · intro catsEnd c hok
        exact absurd hok (by simp)
    | some e =>
      simp only []
      by_cases he : hasEvent events e = true
      · rw [if_pos he]
        cases hcp : coerceParent parentId with
        | none =>
          refine ⟨?_, ?_, ?_⟩
          · constructor
            · intro _
              exact ⟨hl, ⟨e, rfl, he⟩, Or.inl rfl⟩
            · intro _
              exact ⟨_, rfl⟩
          · intro err herr
            exact absurd herr (by simp)
          · intro catsEnd c hok
            have hpair := Except.ok.inj hok
            have h1 : catsEnd = cats ++ [⟨freshCatId cats, label, none, e⟩] :=
              (congrArg Prod.fst hpair).symm
            have h2 : c = ⟨freshCatId cats, label, none, e⟩ :=
              (congrArg Prod.snd hpair).symm
            subst h2
            exact ⟨rfl, rfl, rfl, by rw [h1]⟩
        | some pp =>
          simp only []
          by_cases hpc : hasCat cats pp = true
          · rw [if_pos hpc]
            refine ⟨?_, ?_, ?_⟩
            · constructor
              · intro _
                exact ⟨hl, ⟨e, rfl, he⟩, Or.inr ⟨pp, rfl, hpc⟩⟩
              · intro _
                exact ⟨_, rfl⟩
            · intro err herr
              exact absurd herr (by simp)
            · intro catsEnd c hok
              have hpair := Except.ok.inj hok
              have h1 : catsEnd = cats ++ [⟨freshCatId cats, label, some pp, e⟩] :=
                (congrArg Prod.fst hpair).symm
              have h2 : c = ⟨freshCatId cats, label, some pp, e⟩ :=
                (congrArg Prod.snd hpair).symm
              subst h2
              exact ⟨rfl, rfl, rfl, by rw [h1]⟩
          · rw [if_neg hpc]
            refine ⟨?_, ?_, ?_⟩
            · constructor
              · rintro ⟨res, hres⟩
                exact absurd hres (by simp)
              · rintro ⟨-, -, hor⟩
                rcases hor with hor | ⟨pp2, hpp2, hpc2⟩
                · exact Option.noConfusion hor
                · injection hpp2 with h3
                  subst h3
                  exact absurd hpc2 hpc
            · intro err herr
              exact ⟨_, (Except.error.inj herr).symm⟩
            · intro catsEnd c hok
              exact absurd hok (by simp)
      · rw [if_neg he]
        refine ⟨?_, ?_, ?_⟩
        · constructor
          · rintro ⟨res, hres⟩
            exact absurd hres (by simp)
          · rintro ⟨-, ⟨e2, he2, hev2⟩, -⟩
            injection he2 with h3
            subst h3
            exact absurd hev2 he
        · intro err herr
          exact ⟨_, (Except.error.inj herr).symm⟩
        · intro catsEnd c hok
          exact absurd hok (by simp)

/-- C6 amended witness: the characterization applied at a concrete
successful call with a coerced parent of 0. -/
theorem createCategory_spec_witness :
    ((∃ res, createCategory [evOne] twoChain "X" (some 0) (some 1) = .ok res) ↔
      (("X" : String) ≠ "" ∧ (∃ e, (some 1 : Option Nat) = some e ∧ hasEvent [evOne] e = true) ∧
        (coerceParent (some 0) = none ∨
          ∃ pp, coerceParent (some 0) = some pp ∧ hasCat twoChain pp = true))) ∧
    (∀ err, createCategory [evOne] twoChain "X" (some 0) (some 1) = .error err →
      ∃ msg, err = .validationError msg) ∧
    (∀ catsEnd c, createCategory [evOne] twoChain "X" (some 0) (some 1) = .ok (catsEnd, c) →
      c.parent_id = coerceParent (some 0) ∧ some c.event_id = (some 1 : Option Nat) ∧
      c.label = "X" ∧ catsEnd = twoChain ++ [c]) :=
  createCategory_spec [evOne] twoChain "X" (some 0) (some 1)

/-! Lemmas about the full tree query. -/

theorem treeStep_nil (cats : List Cat) : treeStep cats [] = [] := by
  simp [treeStep]

theorem mem_treeStep (cats : List Cat) (front : List (Cat × Nat)) (x : Cat × Nat) :
    x ∈ treeStep cats front ↔
      x.1 ∈ cats ∧ ∃ s ∈ front, x.1.parent_id = some s.1.id ∧ x.2 = s.2 + 1 := by
  simp only [treeStep, List.mem_flatMap, List.mem_filterMap]
  constructor
  · rintro ⟨c, hc, s, hs, hif⟩
    by_cases hp : (c.parent_id == some s.1.id) = true
    · rw [if_pos hp] at hif
      injection hif with hif2
      subst hif2
      rw [beq_iff_eq] at hp
      exact ⟨hc, s, hs, hp, rfl⟩
    · rw [if_neg hp] at hif
      exact Option.noConfusion hif
  · rintro ⟨hm, s, hs, hp, hd⟩
    refine ⟨x.1, hm, s, hs, ?_⟩
    rw [if_pos (by simp [hp])]
    rw [← hd]

theorem mem_rootSeed (cats : List Cat) (e : Nat) (x : Cat × Nat) :
    x ∈ rootSeed cats e ↔
      x.1 ∈ cats ∧ x.1.event_id = e ∧ x.1.parent_id = none ∧ x.2 = 0 := by
  simp only [rootSeed, List.mem_map, List.mem_filter, Bool.and_eq_true, beq_iff_eq]
  constructor
  · rintro ⟨c, ⟨hc, hce, hcp⟩, hx⟩
    subst hx
    exact ⟨hc, hce, hcp, rfl⟩
  · rintro ⟨hm, he, hp, h0⟩
    refine ⟨x.1, ⟨hm, he, hp⟩, ?_⟩
    rw [← h0]

theorem rootSeed_ids_nodup {cats : List Cat} (hnd : (cats.map Cat.id).Nodup) (e : Nat) :
    ((rootSeed cats e).map (fun x => x.1.id)).Nodup := by
  rw [rootSeed, List.map_map]
  exact List.Nodup.sublist ((List.filter_sublist cats).map Cat.id) hnd

theorem inner_ids (a : Cat) (front : List (Cat × Nat))
    (hnd : (front.map (fun x => x.1.id)).Nodup) :
    ((front.filterMap (fun s =>
        if a.parent_id == some s.1.id then some (a, s.2 + 1) else none)).map
      (fun x => x.1.id)) = [] ∨
    ((front.filterMap (fun s =>
        if a.parent_id == some s.1.id then some (a, s.2 + 1) else none)).map
      (fun x => x.1.id)) = [a.id] := by
  induction front with
  | nil => left; rfl
  | cons s t ih =>
    rw [List.map_cons, List.nodup_cons] at hnd
    by_cases hp : (a.parent_id == some s.1.id) = true
    · have ht : t.filterMap (fun s2 =>
          if a.parent_id == some s2.1.id then some (a, s2.2 + 1) else none) = [] := by
        rw [List.filterMap_eq_nil_iff]
        intro s2 hs2
        by_cases hcon : (a.parent_id == some s2.1.id) = true
        · rw [beq_iff_eq] at hp hcon
          rw [hp] at hcon
          injection hcon with h3
          exact absurd (List.mem_map.mpr ⟨s2, hs2, h3.symm⟩) hnd.1
        · rw [if_neg hcon]
      right
      simp only [List.filterMap_cons, if_pos hp, ht]
      rfl
    · simp only [List.filterMap_cons, if_neg hp]
      exact ih hnd.2

theorem treeStep_ids_sublist (cats : List Cat) (front : List (Cat × Nat))
    (hnd : (front.map (fun x => x.1.id)).Nodup) :
    ((treeStep cats front).map (fun x => x.1.id)).Sublist (cats.map Cat.id) := by
  rw [treeStep, List.map_flatMap]
  induction cats with
  | nil => simp
  | cons a l ih =>
    simp only [List.flatMap_cons, List.map_cons, List.map_append]
    rcases inner_ids a front hnd with h | h <;> rw [h]
    · exact List.Sublist.cons _ ih
    · exact List.Sublist.cons₂ _ ih

theorem treeStep_prop {cats : List Cat} {e j : Nat} {front : List (Cat × Nat)}
    (hp : ∀ x ∈ front, x.1 ∈ cats ∧ x.2 = j ∧ EDepth cats e x.1 j) :
    ∀ x ∈ treeStep cats front, x.1 ∈ cats ∧ x.2 = j + 1 ∧ EDepth cats e x.1 (j + 1) := by
  intro x hx
  rw [mem_treeStep] at hx
  rcases hx with ⟨hm, s, hs, hpar, hd⟩
  rcases hp s hs with ⟨hsm, hsd, hse⟩
  refine ⟨hm, by omega, ?_⟩
  exact EDepth.step x.1 s.1 j hsm hpar hse

theorem treeGen_invariant {cats : List Cat} {e : Nat} (hnd : (cats.map Cat.id).Nodup) :
    ∀ (k j : Nat) (front : List (Cat × Nat)),
      (∀ x ∈ front, x.1 ∈ cats ∧ x.2 = j ∧ EDepth cats e x.1 j) →
      ((front.map (fun x => x.1.id)).Nodup) →
      (∀ x ∈ powStep (treeStep cats) front k,
        x.1 ∈ cats ∧ x.2 = j + k ∧ EDepth cats e x.1 (j + k)) ∧
      ((powStep (treeStep cats) front k).map (fun x => x.1.id)).Nodup := by
  intro k
  induction k with
  | zero =>
    intro j front h1 h2
    exact ⟨by simpa using h1, h2⟩
  | succ k ih =>
    intro j front h1 h2
    have hstep1 := treeStep_prop h1
    have hstep2 : ((treeStep cats front).map (fun x => x.1.id)).Nodup :=
      List.Nodup.sublist (treeStep_ids_sublist cats front h2) hnd
    have hrec := ih (j + 1) (treeStep cats front) hstep1 hstep2
    constructor
    · intro x hx
      rw [← powStep_shift] at hx
      rcases hrec.1 x hx with ⟨ha, hb, hc⟩
      have harith : j + 1 + k = j + (k + 1) := by omega
      rw [harith] at hb hc
      exact ⟨ha, hb, hc⟩
    · rw [← powStep_shift]
      exact hrec.2

theorem edepth_event {cats : List Cat} {e : Nat} (hsame : SameEventParents cats)
    {c : Cat} {k : Nat} (h : EDepth cats e c k) : c ∈ cats → c.event_id = e := by
  induction h with
  | base c hp he => exact fun _ => he
  | step c s k hs hp hd ih =>
    intro hc
    have hse := ih hs
    have hee := hsame c hc s hs s.id hp rfl
    rw [← hee]
    exact hse

theorem edepth_unique {cats : List Cat} (hnd : (cats.map Cat.id).Nodup) {e : Nat}
    {c : Cat} {k1 : Nat} (h1 : EDepth cats e c k1) :
    ∀ {k2 : Nat}, EDepth cats e c k2 → k1 = k2 := by
  induction h1 with
  | base c hp he =>
    intro k2 h2
    cases h2 with
    | base => rfl
    | step c s k hs hps hd =>
      rw [hp] at hps
      exact Option.noConfusion hps
  | step c s k hs hp hd ih =>
    intro k2 h2
    cases h2 with
    | base c2 hpn hee =>
      rw [hpn] at hp
      exact Option.noConfusion hp
    | step c2 s2 k2m hs2 hp2 hd2 =>
      rw [hp] at hp2
      injection hp2 with h3
      have hss : s = s2 := id_inj hnd hs hs2 h3
      subst hss
      rw [ih hd2]

theorem edepth_exists {cats : List Cat} {d : Nat → Nat} (hwf : WF cats d)
    (hsame : SameEventParents cats) {e : Nat} :
    ∀ (n : Nat) (c : Cat), c ∈ cats → d c.id ≤ n → c.event_id = e →
      ∃ k, k ≤ d c.id ∧ EDepth cats e c k := by
  intro n
  induction n with
  | zero =>
    intro c hc hd he
    cases hp : c.parent_id with
    | none => exact ⟨0, Nat.zero_le _, EDepth.base c hp he⟩
    | some p =>
      rcases hwf.parentWF c hc p hp with ⟨s, hs, hsp, hdc⟩
      omega
  | succ n ih =>
    intro c hc hd he
    cases hp : c.parent_id with
    | none => exact ⟨0, Nat.zero_le _, EDepth.base c hp he⟩
    | some p =>
      rcases hwf.parentWF c hc p hp with ⟨s, hs, hsp, hdc⟩
      have hse : s.event_id = e := by
        rw [hsame c hc s hs p hp hsp]
        exact he
      rcases ih s hs (by omega) hse with ⟨k, hk, hdep⟩
      refine ⟨k + 1, by omega, ?_⟩
      exact EDepth.step c s k hs (by rw [hp, hsp]) hdep

theorem treeGen_complete {cats : List Cat} {e : Nat} {c : Cat} {k : Nat}
    (h : EDepth cats e c k) :
    c ∈ cats → (c, k) ∈ powStep (treeStep cats) (rootSeed cats e) k := by
  induction h with
  | base c hp he =>
    intro hc
    simp only [powStep]
    rw [mem_rootSeed]
    exact ⟨hc, he, hp, rfl⟩
  | step c s k hs hp hd ih =>
    intro hc
    have hsm := ih hs
    simp only [powStep]
    rw [mem_treeStep]
    exact ⟨hc, (s, k), hsm, hp, rfl⟩

theorem treeRun_nodup {cats : List Cat} {e : Nat} (hnd : (cats.map Cat.id).Nodup) :
    ∀ (n j : Nat) (front : List (Cat × Nat)),
      (∀ x ∈ front, x.1 ∈ cats ∧ x.2 = j ∧ EDepth cats e x.1 j) →
      ((front.map (fun x => x.1.id)).Nodup) →
      ((runCte (treeStep cats) n front).map (fun x => x.1.id)).Nodup := by
  intro n
  induction n with
  | zero =>
    intro j front h1 h2
    simp [runCte]
  | succ n ih =>
    intro j front h1 h2
    simp only [runCte]
    by_cases hf : front.isEmpty
    · simp [hf]
    · have hne : front.isEmpty = false := by
        cases hq : front.isEmpty
        · rfl
        · exact absurd hq hf
      rw [hne]
      simp only [Bool.false_eq_true, if_false, List.map_append, List.nodup_append]
      have hstep1 := treeStep_prop h1
      have hstep2 : ((treeStep cats front).map (fun x => x.1.id)).Nodup :=
        List.Nodup.sublist (treeStep_ids_sublist cats front h2) hnd
      refine ⟨h2, ih (j + 1) (treeStep cats front) hstep1 hstep2, ?_⟩
      intro a ha ha2
      rcases List.mem_map.mp ha with ⟨x, hx, hxa⟩
      rcases List.mem_map.mp ha2 with ⟨y, hy, hya⟩
      rcases runCte_sound _ y n _ hy with ⟨m, _, hym⟩
      have hyprop := (treeGen_invariant hnd m (j + 1) (treeStep cats front)
        hstep1 hstep2).1 y hym
      rcases h1 x hx with ⟨hxm, hxj, hxe⟩
      rcases hyprop with ⟨hym2, hyj, hye⟩
      have hxy : y.1 = x.1 := id_inj hnd hym2 hxm (by rw [hya, ← hxa])
      rw [hxy] at hye
      have hk := edepth_unique hnd hxe hye
      omega

/-- C5: for a well formed table whose parent edges stay within one event,
the full tree query returns rows exactly of the requested event, each
category of that event exactly once (the returned ids are distinct and
every category of the event appears), each annotated with its true path
length from its root, and the sequence is sorted by depth then id. -/
theorem fetchFullTree_correct (cats : List Cat) (d : Nat → Nat) (e fuel : Nat)
    (hwf : WF cats d) (hsame : SameEventParents cats)
    (hfuel : ∀ c ∈ cats, d c.id < fuel) :
    (∀ x ∈ fetchFullTree cats e fuel,
      x.1 ∈ cats ∧ x.1.event_id = e ∧ EDepth cats e x.1 x.2) ∧
    (∀ c ∈ cats, c.event_id = e →
      ∃ k, (c, k) ∈ fetchFullTree cats e fuel ∧ EDepth cats e c k) ∧
    ((fetchFullTree cats e fuel).map (fun x => x.1.id)).Nodup ∧
    List.Sorted depthIdLe (fetchFullTree cats e fuel) := by
  have hperm := List.perm_insertionSort depthIdLe
    (runCte (treeStep cats) fuel (rootSeed cats e))
  have hseed1 : ∀ x ∈ rootSeed cats e, x.1 ∈ cats ∧ x.2 = 0 ∧ EDepth cats e x.1 0 := by
    intro x hx
    rw [mem_rootSeed] at hx
    exact ⟨hx.1, hx.2.2.2, EDepth.base x.1 hx.2.2.1 hx.2.1⟩
  have hseed2 : ((rootSeed cats e).map (fun x => x.1.id)).Nodup :=
    rootSeed_ids_nodup hwf.nodup e
  refine ⟨?_, ?_, ?_, ?_⟩
  · intro x hx
    have hx2 : x ∈ runCte (treeStep cats) fuel (rootSeed cats e) := hperm.mem_iff.mp hx
    rcases runCte_sound _ x fuel _ hx2 with ⟨k, _, hk⟩
    have hx3 := (treeGen_invariant hwf.nodup k 0 _ hseed1 hseed2).1 x hk
    rcases hx3 with ⟨h1, h2, h3⟩
    rw [Nat.zero_add] at h2 h3
    refine ⟨h1, edepth_event hsame h3 h1, ?_⟩
    rw [h2]
    exact h3
  · intro c hc he
    rcases edepth_exists hwf hsame (d c.id) c hc (Nat.le_refl _) he with ⟨k, hk, hdep⟩
    have hmem := treeGen_complete hdep hc
    have hkfuel : k < fuel := by
      have := hfuel c hc
      omega
    have hrun : (c, k) ∈ runCte (treeStep cats) fuel (rootSeed cats e) :=
      runCte_complete _ (treeStep_nil cats) _ k fuel _ hmem hkfuel
    exact ⟨k, hperm.mem_iff.mpr hrun, hdep⟩
  · have hrn := treeRun_nodup hwf.nodup fuel 0 _ hseed1 hseed2
    exact ((hperm.map (fun x => x.1.id)).nodup_iff).mpr hrn
  · exact List.sorted_insertionSort depthIdLe _

theorem sameEvent_twoChain : SameEventParents twoChain := by
  intro c hc s hs p hp hsp
  simp only [twoChain, List.mem_cons, List.not_mem_nil, or_false] at hc hs
  rcases hc with h | h <;> rcases hs with h2 | h2 <;> subst h <;> subst h2 <;> rfl

/-- C5 witness: the theorem applied to the two-row chain under event 1. -/
theorem fetchFullTree_correct_witness :
    (∀ x ∈ fetchFullTree twoChain 1 3,
      x.1 ∈ twoChain ∧ x.1.event_id = 1 ∧ EDepth twoChain 1 x.1 x.2) ∧
    (∀ c ∈ twoChain, c.event_id = 1 →
      ∃ k, (c, k) ∈ fetchFullTree twoChain 1 3 ∧ EDepth twoChain 1 c k) ∧
    ((fetchFullTree twoChain 1 3).map (fun x => x.1.id)).Nodup ∧
    List.Sorted depthIdLe (fetchFullTree twoChain 1 3) :=
  fetchFullTree_correct twoChain (fun i => i) 1 3 wf_twoChain sameEvent_twoChain
    (by decide)

end EventCats
